import Mathlib

/-!
Verification of the RustOwl core against its specification.

This file shallowly embeds the parts of the repository that the checked
claims are about:

* `src/models.rs` — the `Loc` character position (a `u32` value, embedded
  as a natural number bounded by `u32::MAX`), its saturating `Add<i32>` /
  `Sub<i32>` implementations, the `Range` half-open interval with the
  `until > from` construction invariant, and `Crate::merge`'s per-file
  function-list merge.
* `src/utils.rs` — the interval algebra (`common_range`, `merge_ranges`,
  `eliminated_ranges`, `exclude_ranges`) and the character index/line-column
  conversions (`index_to_line_char`, `line_char_to_index`).
* `src/cache.rs` — `CacheConfig::default`, `get_cache_config`, `is_cache`.
* `src/bin/core/analyze/polonius_analyzer.rs` — the location-set stages of
  `get_must_live` (`region_locations`, `subsets`, `region_must_locations`).

Machine integers are embedded as `Nat` with explicit clamping where the
source saturates; Rust `Option` maps to Lean `Option`; Rust strings are
embedded as `String`/`List Char`; hash maps and hash sets whose iteration
order is irrelevant to the checked facts are embedded as total functions
into `Finset` (an absent key denotes the empty set).
-/

/-- `u32::MAX`: the saturation bound of `Loc`'s arithmetic in
`src/models.rs`. -/
def U32MAX : Nat := 4294967295

/-- `Loc` (`src/models.rs`): a character position held in a `u32`, embedded
as a natural number that fits in a `u32`. -/
def Loc : Type := {n : Nat // n ≤ U32MAX}

instance : DecidableEq Loc := fun a b => Subtype.instDecidableEq a b

/-- Build a `Loc` from a bounded natural number. -/
def Loc.mk (n : Nat) (h : n ≤ U32MAX) : Loc := ⟨n, h⟩

/-- `impl Add<i32> for Loc` (`src/models.rs` lines 89–118): a non-negative
offset is added with `u32::saturating_add`; a negative offset's absolute
value (`(-rhs) as u32`, which equals `|rhs|` for every `i32` including
`i32::MIN`) is subtracted with `u32::saturating_sub`.  `Nat` subtraction is
already saturating at 0. -/
def locAdd (l : Loc) (rhs : Int) : Loc :=
  if 0 ≤ rhs then
    ⟨min (l.1 + rhs.toNat) U32MAX, Nat.min_le_right _ _⟩
  else
    ⟨l.1 - (-rhs).toNat, Nat.le_trans (Nat.sub_le _ _) l.2⟩

/-- `impl Sub<i32> for Loc` (`src/models.rs` lines 120–148): a non-negative
offset is subtracted with `u32::saturating_sub`; a negative offset's
absolute value is added with `u32::saturating_add`. -/
def locSub (l : Loc) (rhs : Int) : Loc :=
  if 0 ≤ rhs then
    ⟨l.1 - rhs.toNat, Nat.le_trans (Nat.sub_le _ _) l.2⟩
  else
    ⟨min (l.1 + (-rhs).toNat) U32MAX, Nat.min_le_right _ _⟩

/-- `Loc`'s `Ord`-derived minimum (`u32` comparison). -/
def Loc.minL (a b : Loc) : Loc := if a.1 ≤ b.1 then a else b

/-- `Loc`'s `Ord`-derived maximum (`u32` comparison). -/
def Loc.maxL (a b : Loc) : Loc := if a.1 ≤ b.1 then b else a

/-- `Range` (`src/models.rs`): a half-open character interval
`[fro, til)`.  The Rust fields are private and only `Range::new`
constructs values, so every `Range` satisfies `fro < til`; the embedding
carries that invariant as a field. -/
structure Range where
  fro : Loc
  til : Loc
  valid : fro.1 < til.1

instance : DecidableEq Range :=
  fun a b => decidable_of_iff (a.fro = b.fro ∧ a.til = b.til) (by
    cases a; cases b; simp)

/-- `Range::new` (`src/models.rs` lines 181–187): `none` when
`until.0 <= from.0`, otherwise the range. -/
def Range.new (a b : Loc) : Option Range :=
  if h : b.1 ≤ a.1 then none else some ⟨a, b, by omega⟩

theorem Range.new_eq_some {a b : Loc} {r : Range} (h : Range.new a b = some r) :
    r.fro = a ∧ r.til = b ∧ a.1 < b.1 := by
  unfold Range.new at h
  split at h
  · exact absurd h (by simp)
  · injection h with h
    subst h
    exact ⟨rfl, rfl, by omega⟩

theorem Range.new_isSome {a b : Loc} (h : a.1 < b.1) :
    Range.new a b = some ⟨a, b, h⟩ := by
  unfold Range.new
  split
  · omega
  · rfl

/-- `common_range` (`src/utils.rs` lines 23–33).  The source normalizes the
argument order with one recursive call `common_range(r2, r1)` when
`r2.from() < r1.from()`; after that swap the guard is false, so the
embedding unfolds that single recursion in place. -/
def common_range (r1 r2 : Range) : Option Range :=
  if r2.fro.1 < r1.fro.1 then
    if r2.til.1 < r1.fro.1 then none
    else Range.new r1.fro (Loc.minL r2.til r1.til)
  else
    if r1.til.1 < r2.fro.1 then none
    else Range.new r2.fro (Loc.minL r1.til r2.til)

/-- `merge_ranges` (`src/utils.rs` lines 55–63): convex hull when the two
ranges overlap or touch at a boundary, `none` otherwise. -/
def merge_ranges (r1 r2 : Range) : Option Range :=
  if (common_range r1 r2).isSome ∨ r1.til.1 = r2.fro.1 ∨ r2.til.1 = r1.fro.1 then
    Range.new (Loc.minL r1.fro r2.fro) (Loc.maxL r1.til r2.til)
  else none

/-- Membership of a position in the half-open interval of a `Range`. -/
def inRange (r : Range) (p : Nat) : Prop := r.fro.1 ≤ p ∧ p < r.til.1

/-- Build a `Range` from two bounded naturals (used for concrete inputs). -/
def mkRange (a b : Nat) (hab : a < b) (hb : b ≤ U32MAX) : Range :=
  ⟨⟨a, by omega⟩, ⟨b, hb⟩, hab⟩

/-- `common_range` returns `some` exactly on positive-width intersections. -/
theorem common_range_isSome_iff (r1 r2 : Range) :
    (common_range r1 r2).isSome ↔ max r1.fro.1 r2.fro.1 < min r1.til.1 r2.til.1 := by
  have h1 := r1.valid
  have h2 := r2.valid
  unfold common_range Range.new Loc.minL
  split_ifs <;>
    simp only [Option.isSome_none, Option.isSome_some, Bool.false_eq_true, false_iff,
      true_iff, not_lt] <;> omega

/-- The intersection returned by `common_range` is `[max from, min until)`. -/
theorem common_range_eq_some {r1 r2 : Range} {c : Range}
    (h : common_range r1 r2 = some c) :
    c.fro.1 = max r1.fro.1 r2.fro.1 ∧ c.til.1 = min r1.til.1 r2.til.1 := by
  have h1 := r1.valid
  have h2 := r2.valid
  unfold common_range Range.new Loc.minL at h
  split_ifs at h
  all_goals
    first
      | exact absurd h (by exact fun hh => Option.noConfusion hh)
      | (injection h with h; subst h; refine ⟨?_, ?_⟩ <;> dsimp only <;> omega)

/-- If a position lies in both ranges, `common_range` returns `some`. -/
theorem common_range_isSome_of_point {r1 r2 : Range} {p : Nat}
    (h1 : inRange r1 p) (h2 : inRange r2 p) : (common_range r1 r2).isSome := by
  obtain ⟨a1, b1⟩ := h1
  obtain ⟨a2, b2⟩ := h2
  rw [common_range_isSome_iff]
  omega

/-- The start of a returned intersection lies in both arguments. -/
theorem common_range_point_mem {r1 r2 : Range} {c : Range}
    (h : common_range r1 r2 = some c) : inRange r1 c.fro.1 ∧ inRange r2 c.fro.1 := by
  obtain ⟨hf, ht⟩ := common_range_eq_some h
  have hv := c.valid
  have h1 := r1.valid
  have h2 := r2.valid
  exact ⟨⟨by omega, by omega⟩, ⟨by omega, by omega⟩⟩

/-- C9.  Adding a signed 32-bit offset to a `Loc` and subtracting a signed
32-bit offset from a `Loc` saturate: for every `Loc` and every `i32`
offset, the result equals the mathematical sum (respectively difference)
clamped to `[0, u32::MAX]` — no wrap-around, in both the `Add` and the
`Sub` implementation, negative offsets included. -/
theorem loc_add_sub_saturate (l : Loc) (rhs : Int)
    (hlo : -2147483648 ≤ rhs) (hhi : rhs < 2147483648) :
    ((locAdd l rhs).1 : Int) = max 0 (min ((l.1 : Int) + rhs) (U32MAX : Int)) ∧
    ((locSub l rhs).1 : Int) = max 0 (min ((l.1 : Int) - rhs) (U32MAX : Int)) := by
  obtain ⟨lv, hl⟩ := l
  unfold locAdd locSub U32MAX
  unfold U32MAX at hl
  constructor
  · split
    · simp only []
      omega
    · simp only []
      omega
  · split
    · simp only []
      omega
    · simp only []
      omega

theorem loc_add_sub_saturate_witness :
    -2147483648 ≤ (-7 : Int) ∧ (-7 : Int) < 2147483648 ∧
      ((locAdd (Loc.mk 3 (by norm_num [U32MAX])) (-7)).1 : Int) =
        max 0 (min (((Loc.mk 3 (by norm_num [U32MAX])).1 : Int) + (-7)) (U32MAX : Int)) :=
  ⟨by norm_num, by norm_num,
    (loc_add_sub_saturate (Loc.mk 3 (by norm_num [U32MAX])) (-7)
      (by norm_num) (by norm_num)).1⟩

/-- C5.  Two valid ranges touching exactly at a boundary
(`r1.until == r2.from`) have no positive-width intersection
(`common_range` is `none`) while `merge_ranges` returns the convex hull
`[r1.from, r2.until)`: adjacency is mergeable but never overlapping. -/
theorem adjacent_common_none_merge_hull (r1 r2 : Range)
    (hadj : r1.til.1 = r2.fro.1) :
    common_range r1 r2 = none ∧
      ∃ m, merge_ranges r1 r2 = some m ∧ m.fro = r1.fro ∧ m.til = r2.til := by
  have h1 := r1.valid
  have h2 := r2.valid
  have hcn : common_range r1 r2 = none := by
    cases hc : common_range r1 r2 with
    | none => rfl
    | some c =>
      have hs := (common_range_isSome_iff r1 r2).mp (by rw [hc]; rfl)
      omega
  refine ⟨hcn, ?_⟩
  have hm : merge_ranges r1 r2 =
      Range.new (Loc.minL r1.fro r2.fro) (Loc.maxL r1.til r2.til) := by
    unfold merge_ranges
    split
    · rfl
    · rename_i hcond
      exact absurd (Or.inl (Or.inl hadj)) (by tauto)
  have hmin : Loc.minL r1.fro r2.fro = r1.fro := by
    unfold Loc.minL
    split
    · rfl
    · omega
  have hmax : Loc.maxL r1.til r2.til = r2.til := by
    unfold Loc.maxL
    split
    · rfl
    · omega
  rw [hm, hmin, hmax, Range.new_isSome (by omega)]
  exact ⟨_, rfl, rfl, rfl⟩

theorem adjacent_common_none_merge_hull_witness :
    common_range (mkRange 0 5 (by norm_num) (by norm_num [U32MAX]))
        (mkRange 5 10 (by norm_num) (by norm_num [U32MAX])) = none ∧
      ∃ m, merge_ranges (mkRange 0 5 (by norm_num) (by norm_num [U32MAX]))
          (mkRange 5 10 (by norm_num) (by norm_num [U32MAX])) = some m ∧
        m.fro = (mkRange 0 5 (by norm_num) (by norm_num [U32MAX])).fro ∧
        m.til = (mkRange 5 10 (by norm_num) (by norm_num [U32MAX])).til :=
  adjacent_common_none_merge_hull _ _ rfl

/-- The sort key of `eliminated_ranges` (`src/utils.rs` line 74):
`sort_by_key(|r| (r.from().0, r.until().0))`, i.e. lexicographic order on
`(from, until)`. -/
def rangeKeyLe (a b : Range) : Prop :=
  a.fro.1 < b.fro.1 ∨ (a.fro.1 = b.fro.1 ∧ a.til.1 ≤ b.til.1)

instance : DecidableRel rangeKeyLe := fun a b => by
  unfold rangeKeyLe
  infer_instance

instance : IsTotal Range rangeKeyLe := ⟨by
  intro a b
  unfold rangeKeyLe
  omega⟩

instance : IsTrans Range rangeKeyLe := ⟨by
  intro a b c
  unfold rangeKeyLe
  omega⟩

/-- The linear scan-and-merge loop of `eliminated_ranges`
(`src/utils.rs` lines 76–88), with `current` the running accumulator.
The merge condition `r.from().0 <= current.until().0 ||
r.from().0 == current.until().0` is kept verbatim (the second disjunct is
subsumed by the first).  The `Range::new(current.from(), r.until()).unwrap()`
in the source cannot panic because `current.from < current.until < r.until`
holds in that branch; the embedding supplies that proof. -/
def elimScan : Range → List Range → List Range
  | current, [] => [current]
  | current, r :: rest =>
    if r.fro.1 ≤ current.til.1 ∨ r.fro.1 = current.til.1 then
      if h2 : current.til.1 < r.til.1 then
        elimScan ⟨current.fro, r.til, Nat.lt_trans current.valid h2⟩ rest
      else
        elimScan current rest
    else
      current :: elimScan r rest

/-- `eliminated_ranges` (`src/utils.rs` lines 69–90): lists of length at
most one are returned as-is; otherwise sort by `(from, until)` and merge
linearly.  Rust's `sort_by_key` is a stable sort, and the sort key
`(from, until)` determines the whole `Range` value, so every sort by this
key produces the same list; the embedding uses insertion sort, which is
such a sort. -/
def eliminated_ranges (l : List Range) : List Range :=
  if l.length ≤ 1 then l
  else
    match List.insertionSort rangeKeyLe l with
    | [] => []
    | c :: rest => elimScan c rest

theorem elimScan_inv (rest : List Range) (current : Range)
    (hsort : List.Pairwise rangeKeyLe rest)
    (hlo : ∀ r ∈ rest, current.fro.1 ≤ r.fro.1) :
    (∀ x ∈ elimScan current rest, current.fro.1 ≤ x.fro.1) ∧
      List.Pairwise (fun a b => a.til.1 < b.fro.1) (elimScan current rest) := by
  induction rest generalizing current with
  | nil =>
    refine ⟨?_, ?_⟩ <;> simp [elimScan]
  | cons r rest ih =>
    rw [List.pairwise_cons] at hsort
    obtain ⟨hr, hrest⟩ := hsort
    have hfro : ∀ x ∈ rest, r.fro.1 ≤ x.fro.1 := by
      intro x hx
      have := hr x hx
      unfold rangeKeyLe at this
      omega
    have hcur_r : current.fro.1 ≤ r.fro.1 := hlo r (List.mem_cons_self _ _)
    unfold elimScan
    split
    · split
      · rename_i hcond h2
        have := ih ⟨current.fro, r.til, Nat.lt_trans current.valid h2⟩ hrest
          (by intro x hx; exact Nat.le_trans hcur_r (hfro x hx))
        exact this
      · exact ih current hrest (fun x hx => Nat.le_trans hcur_r (hfro x hx))
    · rename_i hcond
      have hgt : current.til.1 < r.fro.1 := by
        rw [not_or] at hcond
        omega
      obtain ⟨ih1, ih2⟩ := ih r hrest hfro
      constructor
      · intro x hx
        rcases List.mem_cons.mp hx with hx | hx
        · subst hx
          exact Nat.le_refl _
        · exact Nat.le_trans hcur_r (Nat.le_trans (Nat.le_refl _) (ih1 x hx))
      · rw [List.pairwise_cons]
        refine ⟨?_, ih2⟩
        intro x hx
        exact Nat.lt_of_lt_of_le hgt (ih1 x hx)

/-- C4.  For every input list of valid ranges, the output of
`eliminated_ranges` is pairwise non-overlapping and non-adjacent — for any
two output ranges, the earlier ends strictly before the later begins —
and is internally sorted by start position. -/
theorem eliminated_ranges_disjoint_sorted (l : List Range) :
    List.Pairwise (fun a b => a.til.1 < b.fro.1) (eliminated_ranges l) ∧
      List.Pairwise (fun a b => a.fro.1 < b.fro.1) (eliminated_ranges l) := by
  have key : List.Pairwise (fun a b => a.til.1 < b.fro.1) (eliminated_ranges l) := by
    unfold eliminated_ranges
    split
    · rename_i hlen
      match l, hlen with
      | [], _ => exact List.Pairwise.nil
      | [x], _ => exact List.pairwise_singleton _ _
    · have hsorted : List.Pairwise rangeKeyLe (List.insertionSort rangeKeyLe l) :=
        List.sorted_insertionSort rangeKeyLe l
      cases hs : List.insertionSort rangeKeyLe l with
      | nil => exact List.Pairwise.nil
      | cons c rest =>
        rw [hs, List.pairwise_cons] at hsorted
        obtain ⟨hc, hrest⟩ := hsorted
        exact (elimScan_inv rest c hrest (by
          intro x hx
          have := hc x hx
          unfold rangeKeyLe at this
          omega)).2
  refine ⟨key, key.imp ?_⟩
  intro a b h
  exact Nat.lt_trans a.valid h

/-- Total width of a list of ranges (termination measure of the
`exclude_ranges` rewriting loop). -/
def sumWidth (l : List Range) : Nat := (l.map (fun r => r.til.1 - r.fro.1)).sum

/-- The inner `j` loop of `exclude_ranges` (`src/utils.rs` lines 107–119):
the first exclude range having a positive-width intersection with `r`,
returned as that intersection. -/
def findCommonIn (r : Range) : List Range → Option Range
  | [] => none
  | e :: rest =>
    match common_range r e with
    | some c => some c
    | none => findCommonIn r rest

theorem findCommonIn_none {r : Range} {l : List Range}
    (h : findCommonIn r l = none) : ∀ e ∈ l, common_range r e = none := by
  induction l with
  | nil => intro e he; cases he
  | cons e rest ih =>
    unfold findCommonIn at h
    intro x hx
    rcases List.mem_cons.mp hx with hx | hx
    · subst hx
      cases hc : common_range r x with
      | none => rfl
      | some c => rw [hc] at h; exact absurd h (by simp)
    · cases hc : common_range r e with
      | none => rw [hc] at h; exact ih h x hx
      | some c => rw [hc] at h; exact absurd h (by simp)

theorem findCommonIn_some {r c : Range} {l : List Range}
    (h : findCommonIn r l = some c) : ∃ e ∈ l, common_range r e = some c := by
  induction l with
  | nil => cases h
  | cons e rest ih =>
    unfold findCommonIn at h
    cases hc : common_range r e with
    | none =>
      rw [hc] at h
      obtain ⟨x, hx, hcx⟩ := ih h
      exact ⟨x, List.mem_cons_of_mem _ hx, hcx⟩
    | some c2 =>
      rw [hc] at h
      injection h with h
      subst h
      exact ⟨e, List.mem_cons_self _ _, hc⟩

theorem locSub_one (a : Loc) : (locSub a 1).1 = a.1 - 1 := by
  unfold locSub
  norm_num

theorem locAdd_one (a : Loc) : (locAdd a 1).1 = min (a.1 + 1) U32MAX := by
  unfold locAdd
  norm_num

theorem sumWidth_new_toList (a b : Loc) :
    sumWidth (Range.new a b).toList = b.1 - a.1 := by
  unfold Range.new
  split
  · rename_i h
    simp [sumWidth]
    omega
  · simp [sumWidth]

theorem length_new_toList (a b : Loc) :
    (Range.new a b).toList.length ≤ 1 := by
  unfold Range.new
  split <;> simp

theorem sumWidth_append (l1 l2 : List Range) :
    sumWidth (l1 ++ l2) = sumWidth l1 + sumWidth l2 := by
  unfold sumWidth
  rw [List.map_append, List.sum_append]

/-- The `'outer` loop of `exclude_ranges` (`src/utils.rs` lines 105–121),
phrased over the vector split at the cursor `i`: `checked` holds the
elements below `i` (each already scanned against every exclude without a
positive-width intersection) and `pending` the elements from `i` on.  A
cut removes the pending head and pushes the two clipped fragments
`Range::new(from, common.from - 1)` / `Range::new(common.until + 1, until)`
at the back of the vector, i.e. at the back of `pending`; otherwise the
head is promoted to `checked` (`i += 1`).  The `fuel` argument bounds the
number of iterations; every iteration strictly decreases
`3 * sumWidth pending + pending.length` (a cut loses at least the clipped
intersection's width plus the two boundary characters), so the caller's
fuel `3 * sumWidth from + from.length` is never exhausted and the
fuel-out branch is unreachable. -/
def excludeGo : Nat → List Range → List Range → List Range → List Range
  | 0, checked, pending, _ => checked ++ pending
  | _ + 1, checked, [], _ => checked
  | fuel + 1, checked, r :: rest, excludes =>
    match findCommonIn r excludes with
    | none => excludeGo fuel (checked ++ [r]) rest excludes
    | some c =>
      excludeGo fuel checked
        (rest ++ (Range.new r.fro (locSub c.fro 1)).toList
          ++ (Range.new (locAdd c.til 1) r.til).toList) excludes

/-- `exclude_ranges` (`src/utils.rs` lines 102–123): iterate the clipping
loop from an empty checked prefix, then normalize with
`eliminated_ranges`. -/
def exclude_ranges (fromL excludes : List Range) : List Range :=
  eliminated_ranges
    (excludeGo (3 * sumWidth fromL + fromL.length) [] fromL excludes)

theorem excludeGo_no_common :
    ∀ (fuel : Nat) (checked pending excludes : List Range),
      3 * sumWidth pending + pending.length ≤ fuel →
      (∀ r ∈ checked, ∀ e ∈ excludes, common_range r e = none) →
      ∀ r ∈ excludeGo fuel checked pending excludes, ∀ e ∈ excludes,
        common_range r e = none := by
  intro fuel
  induction fuel with
  | zero =>
    intro checked pending excludes hm hc r hr e he
    have hlen : pending.length = 0 := by omega
    rw [List.length_eq_zero] at hlen
    subst hlen
    unfold excludeGo at hr
    rw [List.append_nil] at hr
    exact hc r hr e he
  | succ fuel ih =>
    intro checked pending excludes hm hc r hr e he
    match pending with
    | [] =>
      unfold excludeGo at hr
      exact hc r hr e he
    | p :: rest =>
      unfold excludeGo at hr
      have hwid : sumWidth (p :: rest) = (p.til.1 - p.fro.1) + sumWidth rest := by
        unfold sumWidth
        simp [Nat.add_comm]
      cases hfc : findCommonIn p excludes with
      | none =>
        rw [hfc] at hr
        refine ih (checked ++ [p]) rest excludes ?_ ?_ r hr e he
        · simp at hm ⊢
          omega
        · intro x hx ex hex
          rcases List.mem_append.mp hx with hx | hx
          · exact hc x hx ex hex
          · rw [List.mem_singleton] at hx
            subst hx
            exact findCommonIn_none hfc ex hex
      | some c =>
        rw [hfc] at hr
        obtain ⟨ex0, hex0, hcex0⟩ := findCommonIn_some hfc
        obtain ⟨hcf, hct⟩ := common_range_eq_some hcex0
        have hcv := c.valid
        have hpv := p.valid
        have hbound := p.til.2
        refine ih checked _ excludes ?_ hc r hr e he
        rw [sumWidth_append, sumWidth_append, sumWidth_new_toList, sumWidth_new_toList]
        have hl1 := length_new_toList p.fro (locSub c.fro 1)
        have hl2 := length_new_toList (locAdd c.til 1) p.til
        simp only [List.length_append]
        rw [locSub_one, locAdd_one]
        have hm2 : 3 * ((p.til.1 - p.fro.1) + sumWidth rest) + (rest.length + 1) ≤
            fuel + 1 := by
          rw [← hwid]
          simpa using hm
        rcases le_or_lt (c.til.1 + 1) U32MAX with hct2 | hct2
        · rw [Nat.min_eq_left hct2]
          omega
        · have hceq : c.til.1 = U32MAX := by
            have := c.til.2
            omega
          rw [Nat.min_eq_right (by omega)]
          omega

/-- Every position covered by the scan-and-merge output is covered by the
accumulator or by some not-yet-scanned input range (the merge step only
joins overlapping-or-adjacent intervals, so it covers no new position). -/
theorem elimScan_cover (rest : List Range) (current : Range) :
    ∀ x ∈ elimScan current rest, ∀ p, inRange x p →
      inRange current p ∨ ∃ r ∈ rest, inRange r p := by
  induction rest generalizing current with
  | nil =>
    intro x hx p hp
    simp [elimScan] at hx
    subst hx
    exact Or.inl hp
  | cons r rest ih =>
    intro x hx p hp
    unfold elimScan at hx
    split at hx
    · rename_i hcond
      split at hx
      · rename_i h2
        rcases ih _ x hx p hp with hcur | ⟨r', hr', hp'⟩
        · obtain ⟨ha, hb⟩ := hcur
          dsimp only at ha hb
          by_cases hsplit : p < current.til.1
          · exact Or.inl ⟨ha, hsplit⟩
          · refine Or.inr ⟨r, List.mem_cons_self _ _, ?_, hb⟩
            omega
        · exact Or.inr ⟨r', List.mem_cons_of_mem _ hr', hp'⟩
      · rcases ih _ x hx p hp with hcur | ⟨r', hr', hp'⟩
        · exact Or.inl hcur
        · exact Or.inr ⟨r', List.mem_cons_of_mem _ hr', hp'⟩
    · rcases List.mem_cons.mp hx with hx | hx
      · subst hx
        exact Or.inl hp
      · rcases ih _ x hx p hp with hcur | ⟨r', hr', hp'⟩
        · exact Or.inr ⟨r, List.mem_cons_self _ _, hcur⟩
        · exact Or.inr ⟨r', List.mem_cons_of_mem _ hr', hp'⟩

/-- Every position covered by `eliminated_ranges`' output is covered by
some input range. -/
theorem eliminated_ranges_cover (l : List Range) :
    ∀ x ∈ eliminated_ranges l, ∀ p, inRange x p → ∃ r ∈ l, inRange r p := by
  intro x hx p hp
  unfold eliminated_ranges at hx
  split at hx
  · exact ⟨x, hx, hp⟩
  · have hperm := List.perm_insertionSort rangeKeyLe l
    cases hs : List.insertionSort rangeKeyLe l with
    | nil => rw [hs] at hx; cases hx
    | cons c rest =>
      rw [hs] at hx hperm
      rcases elimScan_cover rest c x hx p hp with hc | ⟨r', hr', hp'⟩
      · exact ⟨c, hperm.mem_iff.mp (List.mem_cons_self _ _), hc⟩
      · exact ⟨r', hperm.mem_iff.mp (List.mem_cons_of_mem _ hr'), hp'⟩

/-- C2.  No range in the output of `exclude_ranges(from, excludes)` has a
positive-width intersection (`common_range` returning `some`) with any
range in `excludes`. -/
theorem exclude_ranges_no_overlap (fromL excludes : List Range) :
    ∀ o ∈ exclude_ranges fromL excludes, ∀ e ∈ excludes,
      common_range o e = none := by
  intro o ho e he
  cases hc : common_range o e with
  | none => rfl
  | some c =>
    exfalso
    obtain ⟨hpo, hpe⟩ := common_range_point_mem hc
    unfold exclude_ranges at ho
    obtain ⟨r, hr, hrp⟩ := eliminated_ranges_cover _ o ho c.fro.1 hpo
    have hnone := excludeGo_no_common (3 * sumWidth fromL + fromL.length) [] fromL
      excludes (Nat.le_refl _) (by intro x hx; cases hx) r hr e he
    have hsome := common_range_isSome_of_point hrp hpe
    rw [hnone] at hsome
    exact absurd hsome (by simp)

theorem exclude_ranges_no_overlap_witness :
    common_range (mkRange 0 4 (by norm_num) (by norm_num [U32MAX]))
      (mkRange 5 15 (by norm_num) (by norm_num [U32MAX])) = none :=
  exclude_ranges_no_overlap
    [mkRange 0 20 (by norm_num) (by norm_num [U32MAX])]
    [mkRange 5 15 (by norm_num) (by norm_num [U32MAX])]
    (mkRange 0 4 (by norm_num) (by norm_num [U32MAX]))
    (by decide)
    (mkRange 5 15 (by norm_num) (by norm_num [U32MAX]))
    (by decide)

theorem common_range_eq_none_of (r1 r2 : Range)
    (h : min r1.til.1 r2.til.1 ≤ max r1.fro.1 r2.fro.1) :
    common_range r1 r2 = none := by
  cases hx : common_range r1 r2 with
  | none => rfl
  | some c =>
    have hs := (common_range_isSome_iff r1 r2).mp (by rw [hx]; rfl)
    omega

theorem sumWidth_singleton (x : Range) : sumWidth [x] = x.til.1 - x.fro.1 := by
  simp [sumWidth]

/-- C10.  When `exclude_ranges` cuts a source range around an exclusion
that lies strictly inside it, each retained fragment loses one extra
character at the cut boundary: the left fragment ends at one less than
the intersection's start and the right fragment begins at one more than
the intersection's end.  In particular
`exclude_ranges([[0,20)], [[5,15)])` yields `[0,4)` and `[16,20)`. -/
theorem exclude_ranges_cut_boundaries (r e : Range)
    (hleft : r.fro.1 + 1 < e.fro.1) (hright : e.til.1 + 1 < r.til.1) :
    (exclude_ranges [r] [e]).map (fun x => (x.fro.1, x.til.1)) =
      [(r.fro.1, e.fro.1 - 1), (e.til.1 + 1, r.til.1)] := by
  have hev := e.valid
  have hrv := r.valid
  have hbr := r.til.2
  have hbe := e.fro.2
  have hcre : common_range r e = some ⟨e.fro, e.til, e.valid⟩ := by
    unfold common_range
    rw [if_neg (by omega), if_neg (by omega)]
    have hmin : Loc.minL r.til e.til = e.til := by
      unfold Loc.minL
      rw [if_neg (by omega)]
    rw [hmin]
    exact Range.new_isSome e.valid
  have hfc : findCommonIn r [e] = some ⟨e.fro, e.til, e.valid⟩ := by
    simp [findCommonIn, hcre]
  obtain ⟨f1, hn1, hf1f, hf1t⟩ :
      ∃ f1, Range.new r.fro (locSub e.fro 1) = some f1 ∧
        f1.fro = r.fro ∧ f1.til.1 = e.fro.1 - 1 := by
    have hlt : r.fro.1 < (locSub e.fro 1).1 := by
      rw [locSub_one]
      omega
    exact ⟨_, Range.new_isSome hlt, rfl, locSub_one _⟩
  obtain ⟨f2, hn2, hf2f, hf2t⟩ :
      ∃ f2, Range.new (locAdd e.til 1) r.til = some f2 ∧
        f2.fro.1 = e.til.1 + 1 ∧ f2.til = r.til := by
    have haddv : (locAdd e.til 1).1 = e.til.1 + 1 := by
      rw [locAdd_one, Nat.min_eq_left (by omega)]
    have hlt : (locAdd e.til 1).1 < r.til.1 := by
      rw [haddv]
      omega
    exact ⟨_, Range.new_isSome hlt, haddv, rfl⟩
  have hc1 : common_range f1 e = none := by
    refine common_range_eq_none_of _ _ ?_
    rw [hf1t, hf1f]
    omega
  have hc2 : common_range f2 e = none := by
    refine common_range_eq_none_of _ _ ?_
    rw [hf2f]
    omega
  have hfc1 : findCommonIn f1 [e] = none := by
    simp [findCommonIn, hc1]
  have hfc2 : findCommonIn f2 [e] = none := by
    simp [findCommonIn, hc2]
  obtain ⟨w2, hw⟩ : ∃ w2, 3 * sumWidth [r] + List.length [r] = (w2 + 2) + 1 := by
    refine ⟨3 * sumWidth [r] - 2, ?_⟩
    rw [sumWidth_singleton]
    simp
    omega
  unfold exclude_ranges
  rw [hw]
  have s1 : excludeGo ((w2 + 2) + 1) [] [r] [e] =
      excludeGo (w2 + 2) [] [f1, f2] [e] := by
    simp [excludeGo, hfc, hn1, hn2]
  have s2 : excludeGo (w2 + 2) [] [f1, f2] [e] =
      excludeGo (w2 + 1) [f1] [f2] [e] := by
    simp [excludeGo, hfc1]
  have s3 : excludeGo (w2 + 1) [f1] [f2] [e] = excludeGo w2 [f1, f2] [] [e] := by
    simp [excludeGo, hfc2]
  have s4 : excludeGo w2 [f1, f2] [] [e] = [f1, f2] := by
    cases w2 with
    | zero => simp [excludeGo]
    | succ m => simp [excludeGo]
  rw [s1, s2, s3, s4]
  have hkey : rangeKeyLe f1 f2 := by
    unfold rangeKeyLe
    rw [hf1f, hf2f]
    omega
  have hsort : List.insertionSort rangeKeyLe [f1, f2] = [f1, f2] := by
    simp [List.insertionSort, List.orderedInsert, if_pos hkey]
  have hel : eliminated_ranges [f1, f2] = [f1, f2] := by
    unfold eliminated_ranges
    rw [if_neg (by simp), hsort]
    have hpush : ¬(f2.fro.1 ≤ f1.til.1 ∨ f2.fro.1 = f1.til.1) := by
      rw [hf2f, hf1t]
      omega
    unfold elimScan
    rw [if_neg hpush]
    simp [elimScan]
  rw [hel]
  simp [hf1t, hf2f]
  exact ⟨congrArg (fun l => l.1) hf1f, congrArg (fun l => l.1) hf2t⟩

theorem exclude_ranges_cut_boundaries_witness :
    (exclude_ranges [mkRange 0 20 (by norm_num) (by norm_num [U32MAX])]
        [mkRange 5 15 (by norm_num) (by norm_num [U32MAX])]).map
      (fun x => (x.fro.1, x.til.1)) = [(0, 4), (16, 20)] := by
  have h := exclude_ranges_cut_boundaries
    (mkRange 0 20 (by norm_num) (by norm_num [U32MAX]))
    (mkRange 5 15 (by norm_num) (by norm_num [U32MAX]))
    (by norm_num [mkRange]) (by norm_num [mkRange])
  simpa [mkRange] using h

/-- Rust `char::is_whitespace`: the Unicode `White_Space` property. -/
def rustIsWhitespace (c : Char) : Bool :=
  (0x09 ≤ c.toNat && c.toNat ≤ 0x0D) || c.toNat = 0x20 || c.toNat = 0x85 ||
    c.toNat = 0xA0 || c.toNat = 0x1680 ||
    (0x2000 ≤ c.toNat && c.toNat ≤ 0x200A) || c.toNat = 0x2028 ||
    c.toNat = 0x2029 || c.toNat = 0x202F || c.toNat = 0x205F || c.toNat = 0x3000

/-- Rust `str::trim`: strip leading and trailing whitespace. -/
def rustTrim (s : String) : String :=
  ⟨(((s.data.dropWhile rustIsWhitespace).reverse.dropWhile rustIsWhitespace).reverse)⟩

/-- Rust `char::to_ascii_lowercase`, mapped over the string
(`str::to_ascii_lowercase`). -/
def asciiLowerChar (c : Char) : Char :=
  if 'A' ≤ c ∧ c ≤ 'Z' then Char.ofNat (c.toNat + 32) else c

def toAsciiLower (s : String) : String := ⟨s.data.map asciiLowerChar⟩

/-- `usize::MAX` on the 64-bit targets the crate builds for. -/
def USIZEMAX : Nat := 18446744073709551615

/-- Rust `str::parse::<usize>()`: an optional leading `+`, then one or
more ASCII digits, rejecting the empty string and values over
`usize::MAX` (checked arithmetic overflows to `Err`; for base-10 digit
folding that is exactly a final-value bound). -/
def parseUsize (s : String) : Option Nat :=
  let digits :=
    match s.data with
    | '+' :: rest => rest
    | l => l
  if digits.isEmpty then none
  else if digits.all (fun c => c.isDigit) then
    let n := digits.foldl (fun acc c => acc * 10 + (c.toNat - 48)) 0
    if n ≤ USIZEMAX then some n else none
  else none

/-- `CacheConfig` (`src/cache.rs` lines 6–18). -/
structure CacheConfig where
  max_entries : Nat
  max_memory_bytes : Nat
  use_lru_eviction : Bool
  validate_file_mtime : Bool
  enable_compression : Bool

/-- `CacheConfig::default` (`src/cache.rs` lines 20–30). -/
def CacheConfig.default : CacheConfig :=
  { max_entries := 1000
    max_memory_bytes := 100 * 1024 * 1024
    use_lru_eviction := true
    validate_file_mtime := true
    enable_compression := false }

/-- The environment as `get_cache_config` reads it: the four variables
`RUSTOWL_CACHE_MAX_ENTRIES`, `RUSTOWL_CACHE_MAX_MEMORY_MB`,
`RUSTOWL_CACHE_EVICTION`, `RUSTOWL_CACHE_VALIDATE_FILES` (`none` models
`env::var` returning `Err`). -/
structure CacheEnv where
  maxEntries : Option String
  maxMemoryMb : Option String
  eviction : Option String
  validateFiles : Option String

/-- `get_cache_config` (`src/cache.rs` lines 70–103): start from the
default and override each field from its environment variable; a missing
variable or a failed parse leaves the default; memory is given in MiB and
stored as bytes with `usize::saturating_mul`. -/
def get_cache_config (env : CacheEnv) : CacheConfig :=
  let c0 := CacheConfig.default
  let c1 :=
    match env.maxEntries with
    | some s =>
      match parseUsize s with
      | some v => { c0 with max_entries := v }
      | none => c0
    | none => c0
  let c2 :=
    match env.maxMemoryMb with
    | some s =>
      match parseUsize s with
      | some v => { c1 with max_memory_bytes := min (v * (1024 * 1024)) USIZEMAX }
      | none => c1
    | none => c1
  let c3 :=
    match env.eviction with
    | some s =>
      let t := toAsciiLower (rustTrim s)
      if t = "lru" then { c2 with use_lru_eviction := true }
      else if t = "fifo" then { c2 with use_lru_eviction := false }
      else c2
    | none => c2
  match env.validateFiles with
  | some s =>
    let t := toAsciiLower (rustTrim s)
    { c3 with validate_file_mtime := !(t == "false" || t == "0") }
  | none => c3

/-- `is_cache` (`src/cache.rs` lines 32–39): the cache is disabled only
when `RUSTOWL_CACHE` is present and trims-and-lowercases to `"false"` or
`"0"`. -/
def is_cache (v : Option String) : Bool :=
  !(match v with
    | some s =>
      let t := toAsciiLower (rustTrim s)
      t == "false" || t == "0"
    | none => false)

/-- C7.  `is_cache()` returns `false` iff the cache toggle variable is
present and, after trimming whitespace and ASCII-lowercasing, equals
`"false"` or `"0"`; any other value — the empty string and an unset
variable included — yields `true`. -/
theorem is_cache_false_iff (v : Option String) :
    is_cache v = false ↔
      ∃ s, v = some s ∧
        (toAsciiLower (rustTrim s) = "false" ∨ toAsciiLower (rustTrim s) = "0") := by
  cases v with
  | none => simp [is_cache]
  | some s =>
    simp [is_cache]
    tauto

/-- C6.  Every field of the configuration returned by `get_cache_config`
equals its stated default — 1000 entries, 100 MiB, LRU eviction, mtime
validation on, compression off — whenever the corresponding environment
override is unset or fails to parse; a malformed override is ignored and
the default retained.  (Compression has no override, so it is always at
its default.) -/
theorem cache_config_defaults (env : CacheEnv) :
    ((∀ s, env.maxEntries = some s → parseUsize s = none) →
        (get_cache_config env).max_entries = 1000) ∧
      ((∀ s, env.maxMemoryMb = some s → parseUsize s = none) →
        (get_cache_config env).max_memory_bytes = 100 * 1024 * 1024) ∧
      ((∀ s, env.eviction = some s →
          toAsciiLower (rustTrim s) ≠ "lru" ∧ toAsciiLower (rustTrim s) ≠ "fifo") →
        (get_cache_config env).use_lru_eviction = true) ∧
      (env.validateFiles = none → (get_cache_config env).validate_file_mtime = true) ∧
      (get_cache_config env).enable_compression = false := by
  obtain ⟨me, mm, ev, vf⟩ := env
  refine ⟨?_, ?_, ?_, ?_, ?_⟩
  · intro h
    cases me with
    | none =>
      simp only [get_cache_config, CacheConfig.default]
      repeat' split
      all_goals rfl
    | some s =>
      have hp : parseUsize s = none := h s rfl
      simp only [get_cache_config, CacheConfig.default, hp]
      repeat' split
      all_goals rfl
  · intro h
    cases mm with
    | none =>
      simp only [get_cache_config, CacheConfig.default]
      repeat' split
      all_goals rfl
    | some s =>
      have hp : parseUsize s = none := h s rfl
      simp only [get_cache_config, CacheConfig.default, hp]
      repeat' split
      all_goals rfl
  · intro h
    cases ev with
    | none =>
      simp only [get_cache_config, CacheConfig.default]
      repeat' split
      all_goals rfl
    | some s =>
      obtain ⟨h1, h2⟩ := h s rfl
      simp only [get_cache_config, CacheConfig.default]
      rw [if_neg h1, if_neg h2]
      repeat' split
      all_goals rfl
  · intro h
    subst h
    simp only [get_cache_config, CacheConfig.default]
    repeat' split
    all_goals rfl
  · simp only [get_cache_config, CacheConfig.default]
    repeat' split
    all_goals rfl

/-- A `Function` as `Crate::merge` sees it (`src/models.rs` lines 477–482):
its `fn_id` key and its remaining payload (`basic_blocks`, `decls`),
abstracted as an arbitrary type so the merge facts hold for every
payload. -/
structure FuncM (β : Type) where
  fn_id : Nat
  body : β

/-- `mir.items.retain(|item| seen_ids.insert(item.fn_id))` from
`Crate::merge` (`src/models.rs` line 326): keep an item iff its id was not
yet in the hash set, inserting it as a side effect, so later duplicates are
dropped.  The set is embedded as the list of ids seen so far. -/
def retainNewFns {β : Type} (seen : List Nat) : List (FuncM β) → List (FuncM β)
  | [] => []
  | f :: rest =>
    if f.fn_id ∈ seen then retainNewFns seen rest
    else f :: retainNewFns (f.fn_id :: seen) rest

/-- The per-file branch of `Crate::merge` for a file present in both crates
(`src/models.rs` lines 310–328): `seen_ids` starts from the existing
items' ids, the incoming items are retained through it, and the survivors
are appended to the existing items. -/
def mergeFileItems {β : Type} (existing incoming : List (FuncM β)) : List (FuncM β) :=
  existing ++ retainNewFns (existing.map FuncM.fn_id) incoming

theorem retainNewFns_mem {β : Type} (seen : List Nat) (l : List (FuncM β)) :
    ∀ g ∈ retainNewFns seen l, g ∈ l ∧ g.fn_id ∉ seen := by
  induction l generalizing seen with
  | nil => intro g hg; cases hg
  | cons f rest ih =>
    intro g hg
    unfold retainNewFns at hg
    split at hg
    · obtain ⟨h1, h2⟩ := ih seen g hg
      exact ⟨List.mem_cons_of_mem _ h1, h2⟩
    · rename_i hf
      rcases List.mem_cons.mp hg with hg | hg
      · subst hg
        exact ⟨List.mem_cons_self _ _, hf⟩
      · obtain ⟨h1, h2⟩ := ih _ g hg
        refine ⟨List.mem_cons_of_mem _ h1, ?_⟩
        intro hc
        exact h2 (List.mem_cons_of_mem _ hc)

theorem retainNewFns_nodup {β : Type} (seen : List Nat) (l : List (FuncM β)) :
    ((retainNewFns seen l).map FuncM.fn_id).Nodup := by
  induction l generalizing seen with
  | nil => simp [retainNewFns]
  | cons f rest ih =>
    unfold retainNewFns
    split
    · exact ih seen
    · rw [List.map_cons, List.nodup_cons]
      refine ⟨?_, ih _⟩
      intro hc
      rw [List.mem_map] at hc
      obtain ⟨g, hg, hid⟩ := hc
      have := (retainNewFns_mem _ _ g hg).2
      exact this (hid ▸ List.mem_cons_self _ _)

theorem retainNewFns_first {β : Type} (l1 : List (FuncM β)) (g : FuncM β)
    (l2 : List (FuncM β)) :
    ∀ seen, g.fn_id ∉ seen → g.fn_id ∉ l1.map FuncM.fn_id →
      g ∈ retainNewFns seen (l1 ++ g :: l2) := by
  induction l1 with
  | nil =>
    intro seen hs _
    simp only [List.nil_append, retainNewFns]
    rw [if_neg hs]
    exact List.mem_cons_self _ _
  | cons a l1 ih =>
    intro seen hs hl
    rw [List.map_cons] at hl
    have hne : g.fn_id ≠ a.fn_id := by
      intro hc
      exact hl (hc ▸ List.mem_cons_self _ _)
    have hl' : g.fn_id ∉ l1.map FuncM.fn_id := by
      intro hc
      exact hl (List.mem_cons_of_mem _ hc)
    rw [List.cons_append]
    simp only [retainNewFns]
    split
    · exact ih seen hs hl'
    · refine List.mem_cons_of_mem _ (ih _ ?_ hl')
      intro hc
      rcases List.mem_cons.mp hc with hc | hc
      · exact hne hc
      · exact hs hc

/-- C8.  Merging an incoming file's functions into an existing file keeps
all existing functions unchanged and in order as a prefix, and appends
only incoming functions whose id occurs neither among the existing ids
nor among earlier-appended incoming ids; duplicates by id are discarded
keeping the first-seen occurrence. -/
theorem crate_merge_file_items {β : Type} (ex inc : List (FuncM β)) :
    (mergeFileItems ex inc).take ex.length = ex ∧
      (∀ g ∈ (mergeFileItems ex inc).drop ex.length,
        g ∈ inc ∧ g.fn_id ∉ ex.map FuncM.fn_id) ∧
      (((mergeFileItems ex inc).drop ex.length).map FuncM.fn_id).Nodup ∧
      (∀ l1 g l2, inc = l1 ++ g :: l2 → g.fn_id ∉ ex.map FuncM.fn_id →
        g.fn_id ∉ l1.map FuncM.fn_id →
        g ∈ (mergeFileItems ex inc).drop ex.length) := by
  unfold mergeFileItems
  rw [List.take_left, List.drop_left]
  refine ⟨rfl, ?_, retainNewFns_nodup _ _, ?_⟩
  · intro g hg
    exact retainNewFns_mem _ _ g hg
  · intro l1 g l2 hinc h1 h2
    subst hinc
    exact retainNewFns_first l1 g l2 _ h1 h2

/-- Pointwise update of a map embedded as a total function into `Finset`
(a `HashMap` entry write; an absent key denotes the empty set). -/
def updFn (m : Nat → Finset Nat) (k : Nat) (v : Finset Nat) : Nat → Finset Nat :=
  fun x => if x = k then v else m x

/-- `region_locations` from `get_must_live`
(`src/bin/core/analyze/polonius_analyzer.rs` lines 89–97): for each
`(location, regions)` entry of `origin_live_on_entry`, insert the location
into every listed region's set. -/
def region_locations (olive : List (Nat × List Nat)) : Nat → Finset Nat :=
  olive.foldl
    (fun m p => p.2.foldl (fun m2 rg => updFn m2 rg (insert p.1 (m2 rg))) m)
    (fun _ => ∅)

/-- `subsets` from `get_must_live` (same file, lines 108–116): the
location-indexed `subset` facts merged over all locations,
`sup ↦ union of its direct subs`. -/
def subsets_map (subset : List (Nat × List (Nat × List Nat))) : Nat → Finset Nat :=
  subset.foldl
    (fun m p => p.2.foldl (fun m2 q => updFn m2 q.1 (m2 q.1 ∪ q.2.toFinset)) m)
    (fun _ => ∅)

/-- `region_must_locations` from `get_must_live` (same file, lines
119–129): for each sup region, the union over its *direct* subs of those
subs' `region_locations` sets (the `region_locations.get(sub)` miss
contributes the empty set).  This is the location set attributed to a sup
region before loans are resolved to locals. -/
def region_must_locations (olive : List (Nat × List Nat))
    (subset : List (Nat × List (Nat × List Nat))) (sup : Nat) : Finset Nat :=
  (subsets_map subset sup).biUnion (fun sub => region_locations olive sub)

/-- One region-subset fact edge, as merged over locations by
`get_must_live`: `sub` is a direct subset of `sup`. -/
def subsetStep (subset : List (Nat × List (Nat × List Nat))) (sup sub : Nat) : Prop :=
  sub ∈ subsets_map subset sup

/-- Concrete `origin_live_on_entry` input for the C1 counterexample:
location 100 is origin-live for region 2 only. -/
def cexOlive : List (Nat × List Nat) := [(100, [2])]

/-- Concrete `subset` input for the C1 counterexample: at one location,
region 0 has direct sub 1 and region 1 has direct sub 2, so region 2 is
reachable from region 0 only through the two-step chain 0 ⊇ 1 ⊇ 2. -/
def cexSubset : List (Nat × List (Nat × List Nat)) := [(0, [(0, [1]), (1, [2])])]

/-- C1 (counterexample).  The must-live location sets are *not* closed
under the transitive closure of the subset facts: with the concrete
inputs above, region 2 is reachable from region 0 through a chain of
subset facts and location 100 is origin-live for region 2, yet 100 is not
in region 0's must-live location set. -/
theorem must_live_not_transitively_closed :
    Relation.TransGen (subsetStep cexSubset) 0 2 ∧
      100 ∈ region_locations cexOlive 2 ∧
      100 ∉ region_must_locations cexOlive cexSubset 0 := by
  refine ⟨?_, ?_, ?_⟩
  · have h01 : subsetStep cexSubset 0 1 := by
      show (1 : Nat) ∈ subsets_map cexSubset 0
      decide
    have h12 : subsetStep cexSubset 1 2 := by
      show (2 : Nat) ∈ subsets_map cexSubset 1
      decide
    exact Relation.TransGen.head h01 (Relation.TransGen.single h12)
  · decide
  · decide

/-- C1 (amended).  The location set `get_must_live` attributes to a sup
region is closed under *one* application of the (location-merged) subset
facts: for every direct subset fact `sup ⊇ sub`, every
origin-live-on-entry location of `sub` is in `sup`'s location set before
loans are resolved to locals.  Regions reachable only through chains of
two or more subset facts contribute nothing (the analyzer relies on the
dataflow engine handing it an already transitively closed subset
relation). -/
theorem must_live_one_step_closure (olive : List (Nat × List Nat))
    (subset : List (Nat × List (Nat × List Nat))) (sup sub : Nat)
    (h : subsetStep subset sup sub) :
    region_locations olive sub ⊆ region_must_locations olive subset sup :=
  Finset.subset_biUnion_of_mem _ h

theorem must_live_one_step_closure_witness :
    region_locations cexOlive 2 ⊆ region_must_locations cexOlive cexSubset 1 :=
  must_live_one_step_closure cexOlive cexSubset 1 2 (by
    show (2 : Nat) ∈ subsets_map cexSubset 1
    decide)

/-- The character scan of `index_to_line_char` (`src/utils.rs` lines
169–217).  The source walks newline-delimited segments found with
`memchr`, but the segments concatenate to the whole string, the logical
index only ever reaches the target by returning, so the early-exit tests
`logical_idx > target` / `logical_idx <= target` never cut anything, and
the loop body is the same per-character step in both loops; the embedding
is that per-character scan: skip `\r`, return `(line, col)` once the
logical index hits the target, advance line/column on `\n`/other. -/
def indexToLineCharAux : List Char → Nat → Nat → Nat → Nat → Nat × Nat
  | [], _, line, col, _ => (line, col)
  | c :: rest, target, line, col, k =>
    if c = '\r' then indexToLineCharAux rest target line col k
    else if k = target then (line, col)
    else if c = '\n' then indexToLineCharAux rest target (line + 1) 0 (k + 1)
    else indexToLineCharAux rest target line (col + 1) (k + 1)

/-- `index_to_line_char` (`src/utils.rs` lines 169–217): character offset
to `(line, column)`, ignoring carriage returns. -/
def index_to_line_char (s : List Char) (idx : Nat) : Nat × Nat :=
  indexToLineCharAux s idx 0 0 0

/-- Phase 1 of `line_char_to_index` (`src/utils.rs` lines 229–241): skip
whole lines, counting consumed logical characters (CR excluded, the
newline included).  Returns the rest of the text, the count, and the
lines still owed; the source's `memchr` loop breaks once `line`
reaches 0 and, when newlines run out first, the trailing segment is
counted by the `line > 0` fallback (lines 243–251) — this embedding
counts those trailing characters during the same walk, so the fallback
below adds the (then empty) remainder. -/
def skipLines : List Char → Nat → Nat → (List Char × Nat × Nat)
  | s, 0, consumed => (s, consumed, 0)
  | [], line + 1, consumed => ([], consumed, line + 1)
  | c :: rest, line + 1, consumed =>
    if c = '\r' then skipLines rest (line + 1) consumed
    else if c = '\n' then skipLines rest line (consumed + 1)
    else skipLines rest (line + 1) (consumed + 1)

/-- Phase 2 of `line_char_to_index` (`src/utils.rs` lines 253–267): scan
the current line, returning the consumed count once the requested column
or the line's end is reached. -/
def colScan : List Char → Nat → Nat → Nat → Nat
  | [], _, consumed, _ => consumed
  | c :: rest, ch, consumed, colCount =>
    if c = '\r' then colScan rest ch consumed colCount
    else if colCount = ch then consumed
    else if c = '\n' then consumed
    else colScan rest ch (consumed + 1) (colCount + 1)

/-- The logical character stream: the text without carriage returns
(both conversion functions skip `\r`). -/
def stripCR (s : List Char) : List Char := s.filter (fun c => c ≠ '\r')

/-- `line_char_to_index` (`src/utils.rs` lines 224–268): `(line, column)`
to character offset, ignoring carriage returns, best-effort (the total
logical length) when the line number exceeds the file. -/
def line_char_to_index (s : List Char) (line ch : Nat) : Nat :=
  match skipLines s line 0 with
  | (rem, consumed, left) =>
    if 0 < left then consumed + (stripCR rem).length
    else colScan rem ch consumed 0

/-- The CRLF-normalized variant of a text: every line feed written as
`\r\n`. -/
def toCRLF : List Char → List Char
  | [] => []
  | c :: rest => if c = '\n' then '\r' :: '\n' :: toCRLF rest else c :: toCRLF rest

theorem idxAux_shift_k (s : List Char) :
    ∀ t line col k, k ≤ t →
      indexToLineCharAux s t line col k = indexToLineCharAux s (t - k) line col 0 := by
  induction s with
  | nil => intro t line col k _; rfl
  | cons c rest ih =>
    intro t line col k hk
    by_cases hcr : c = '\r'
    · simp only [indexToLineCharAux, if_pos hcr]
      exact ih t line col k hk
    · by_cases hkt : k = t
      · subst hkt
        simp [indexToLineCharAux, hcr]
      · have hlt : k < t := Nat.lt_of_le_of_ne hk hkt
        have h2 : ¬((0 : Nat) = t - k) := by omega
        simp only [indexToLineCharAux, if_neg hcr, if_neg hkt, if_neg h2]
        by_cases hnl : c = '\n'
        · simp only [if_pos hnl]
          rw [ih t (line + 1) 0 (k + 1) (by omega),
            ih (t - k) (line + 1) 0 (0 + 1) (by omega)]
          have he : t - (k + 1) = t - k - (0 + 1) := by omega
          rw [he]
        · simp only [if_neg hnl]
          rw [ih t line (col + 1) (k + 1) (by omega),
            ih (t - k) line (col + 1) (0 + 1) (by omega)]
          have he : t - (k + 1) = t - k - (0 + 1) := by omega
          rw [he]

theorem idxAux_shift_state (s : List Char) :
    ∀ t line col,
      indexToLineCharAux s t line col 0 =
        (line + (indexToLineCharAux s t 0 0 0).1,
          if (indexToLineCharAux s t 0 0 0).1 = 0 then
            col + (indexToLineCharAux s t 0 0 0).2
          else (indexToLineCharAux s t 0 0 0).2) := by
  induction s with
  | nil => intro t line col; simp [indexToLineCharAux]
  | cons c rest ih =>
    intro t line col
    by_cases hcr : c = '\r'
    · simp only [indexToLineCharAux, if_pos hcr]
      exact ih t line col
    · by_cases ht : t = 0
      · subst ht
        simp [indexToLineCharAux, hcr]
      · have h0t : ¬((0 : Nat) = t) := fun hh => ht hh.symm
        simp only [indexToLineCharAux, if_neg hcr, if_neg h0t]
        by_cases hnl : c = '\n'
        · simp only [if_pos hnl]
          rw [idxAux_shift_k rest t (line + 1) 0 (0 + 1) (by omega),
            idxAux_shift_k rest t (0 + 1) 0 (0 + 1) (by omega)]
          rw [ih (t - (0 + 1)) (line + 1) 0, ih (t - (0 + 1)) (0 + 1) 0]
          rcases hp : indexToLineCharAux rest (t - (0 + 1)) 0 0 0 with ⟨l2, c2⟩
          by_cases hl2 : l2 = 0 <;> simp [hl2, Prod.ext_iff] <;> omega
        · simp only [if_neg hnl]
          rw [idxAux_shift_k rest t line (col + 1) (0 + 1) (by omega),
            idxAux_shift_k rest t 0 (0 + 1) (0 + 1) (by omega)]
          rw [ih (t - (0 + 1)) line (col + 1), ih (t - (0 + 1)) 0 (0 + 1)]
          rcases hp : indexToLineCharAux rest (t - (0 + 1)) 0 0 0 with ⟨l2, c2⟩
          by_cases hl2 : l2 = 0 <;> simp [hl2, Prod.ext_iff] <;> omega

theorem skipLines_shift (s : List Char) :
    ∀ line consumed,
      skipLines s line consumed =
        ((skipLines s line 0).1, consumed + (skipLines s line 0).2.1,
          (skipLines s line 0).2.2) := by
  induction s with
  | nil =>
    intro line consumed
    cases line with
    | zero => simp [skipLines]
    | succ m => simp [skipLines]
  | cons c rest ih =>
    intro line consumed
    cases line with
    | zero => simp [skipLines]
    | succ m =>
      by_cases hcr : c = '\r'
      · simp only [skipLines, if_pos hcr]
        exact ih (m + 1) consumed
      · by_cases hnl : c = '\n'
        · simp only [skipLines, if_neg hcr, if_pos hnl]
          rw [ih m (consumed + 1), ih m (0 + 1)]
          simp [Prod.ext_iff]
          omega
        · simp only [skipLines, if_neg hcr, if_neg hnl]
          rw [ih (m + 1) (consumed + 1), ih (m + 1) (0 + 1)]
          simp [Prod.ext_iff]
          omega

theorem colScan_shift (s : List Char) :
    ∀ ch consumed colCount, colCount ≤ ch →
      colScan s ch consumed colCount = consumed + colScan s (ch - colCount) 0 0 := by
  induction s with
  | nil => intro ch consumed cc h; simp [colScan]
  | cons c rest ih =>
    intro ch consumed cc h
    by_cases hcr : c = '\r'
    · simp only [colScan, if_pos hcr]
      exact ih ch consumed cc h
    · by_cases hcc : cc = ch
      · subst hcc
        simp [colScan, hcr]
      · have h2 : ¬((0 : Nat) = ch - cc) := by omega
        simp only [colScan, if_neg hcr, if_neg hcc, if_neg h2]
        by_cases hnl : c = '\n'
        · simp [hnl]
        · simp only [if_neg hnl]
          rw [ih ch (consumed + 1) (cc + 1) (by omega),
            ih (ch - cc) (0 + 1) (0 + 1) (by omega)]
          have he : ch - (cc + 1) = ch - cc - (0 + 1) := by omega
          rw [he]
          omega

theorem colScan_shift0 (s : List Char) (ch consumed : Nat) :
    colScan s ch consumed 0 = consumed + colScan s ch 0 0 := by
  have h := colScan_shift s ch consumed 0 (Nat.zero_le _)
  simpa using h

theorem lcti_cr (s' : List Char) (L C : Nat) :
    line_char_to_index ('\r' :: s') L C = line_char_to_index s' L C := by
  cases L with
  | zero =>
    simp only [line_char_to_index, skipLines]
    simp [colScan]
  | succ m =>
    have h : skipLines ('\r' :: s') (m + 1) 0 = skipLines s' (m + 1) 0 := by
      simp [skipLines]
    simp only [line_char_to_index, h]

theorem lcti_newline (s' : List Char) (l c : Nat) :
    line_char_to_index ('\n' :: s') (l + 1) c = 1 + line_char_to_index s' l c := by
  have h : skipLines ('\n' :: s') (l + 1) 0 = skipLines s' l (0 + 1) := by
    simp [skipLines]
  simp only [line_char_to_index, h]
  rw [skipLines_shift s' l (0 + 1)]
  rcases hq : skipLines s' l 0 with ⟨rem, c0, left⟩
  dsimp only
  by_cases hl : 0 < left
  · simp only [if_pos hl]
    omega
  · simp only [if_neg hl]
    rw [colScan_shift0 rem c (0 + 1 + c0), colScan_shift0 rem c c0]
    omega

theorem lcti_other_pos (c0 : Char) (s' : List Char) (hcr : c0 ≠ '\r')
    (hnl : c0 ≠ '\n') (l c : Nat) :
    line_char_to_index (c0 :: s') (l + 1) c = 1 + line_char_to_index s' (l + 1) c := by
  have h : skipLines (c0 :: s') (l + 1) 0 = skipLines s' (l + 1) (0 + 1) := by
    simp [skipLines, hcr, hnl]
  simp only [line_char_to_index, h]
  rw [skipLines_shift s' (l + 1) (0 + 1)]
  rcases hq : skipLines s' (l + 1) 0 with ⟨rem, d0, left⟩
  dsimp only
  by_cases hl : 0 < left
  · simp only [if_pos hl]
    omega
  · simp only [if_neg hl]
    rw [colScan_shift0 rem c (0 + 1 + d0), colScan_shift0 rem c d0]
    omega

theorem lcti_other_zero (c0 : Char) (s' : List Char) (hcr : c0 ≠ '\r')
    (hnl : c0 ≠ '\n') (ch : Nat) :
    line_char_to_index (c0 :: s') 0 (ch + 1) = 1 + line_char_to_index s' 0 ch := by
  simp only [line_char_to_index, skipLines]
  simp only [if_neg (by omega : ¬(0 : Nat) < 0)]
  have h1 : ¬((0 : Nat) = ch + 1) := by omega
  simp only [colScan, if_neg hcr, if_neg h1, if_neg hnl]
  rw [colScan_shift s' (ch + 1) (0 + 1) (0 + 1) (by omega)]
  have he : ch + 1 - (0 + 1) = ch := by omega
  rw [he]

theorem idxAux_zero (s : List Char) : indexToLineCharAux s 0 0 0 0 = (0, 0) := by
  induction s with
  | nil => rfl
  | cons c rest ih =>
    by_cases hcr : c = '\r'
    · simp only [indexToLineCharAux, if_pos hcr]
      exact ih
    · simp [indexToLineCharAux, hcr]

theorem idx_zero (s : List Char) : index_to_line_char s 0 = (0, 0) :=
  idxAux_zero s

theorem idx_newline (s' : List Char) (i : Nat) :
    index_to_line_char ('\n' :: s') (i + 1) =
      ((index_to_line_char s' i).1 + 1, (index_to_line_char s' i).2) := by
  unfold index_to_line_char
  have h1 : ¬(('\n' : Char) = '\r') := by decide
  have h2 : ¬((0 : Nat) = i + 1) := by omega
  simp only [indexToLineCharAux, if_neg h1, if_neg h2, if_pos rfl]
  rw [idxAux_shift_k s' (i + 1) (0 + 1) 0 (0 + 1) (by omega)]
  rw [idxAux_shift_state s' (i + 1 - (0 + 1)) (0 + 1) 0]
  have he : i + 1 - (0 + 1) = i := by omega
  rw [he]
  rcases hp : indexToLineCharAux s' i 0 0 0 with ⟨l2, c2⟩
  by_cases hl2 : l2 = 0 <;> simp [hl2, Prod.ext_iff] <;> omega

theorem idx_other (c0 : Char) (s' : List Char) (hcr : c0 ≠ '\r')
    (hnl : c0 ≠ '\n') (i : Nat) :
    index_to_line_char (c0 :: s') (i + 1) =
      (if (index_to_line_char s' i).1 = 0 then (0, (index_to_line_char s' i).2 + 1)
        else index_to_line_char s' i) := by
  unfold index_to_line_char
  have h2 : ¬((0 : Nat) = i + 1) := by omega
  simp only [indexToLineCharAux, if_neg hcr, if_neg h2, if_neg hnl]
  rw [idxAux_shift_k s' (i + 1) 0 (0 + 1) (0 + 1) (by omega)]
  rw [idxAux_shift_state s' (i + 1 - (0 + 1)) 0 (0 + 1)]
  have he : i + 1 - (0 + 1) = i := by omega
  rw [he]
  rcases hp : indexToLineCharAux s' i 0 0 0 with ⟨l2, c2⟩
  by_cases hl2 : l2 = 0 <;> simp [hl2, Prod.ext_iff] <;> omega

theorem stripCR_cons_cr (s : List Char) : stripCR ('\r' :: s) = stripCR s := by
  simp [stripCR]

theorem stripCR_cons (c : Char) (s : List Char) (h : c ≠ '\r') :
    stripCR (c :: s) = c :: stripCR s := by
  simp [stripCR, h]

theorem lcti_idx_roundtrip (s : List Char) :
    ∀ i, i < (stripCR s).length →
      line_char_to_index s (index_to_line_char s i).1 (index_to_line_char s i).2 = i := by
  induction s with
  | nil => intro i h; simp [stripCR] at h
  | cons c s' ih =>
    intro i h
    by_cases hcr : c = '\r'
    · subst hcr
      rw [stripCR_cons_cr] at h
      have hidx : index_to_line_char ('\r' :: s') i = index_to_line_char s' i := by
        unfold index_to_line_char
        simp [indexToLineCharAux]
      rw [hidx, lcti_cr]
      exact ih i h
    · rw [stripCR_cons c s' hcr] at h
      cases i with
      | zero =>
        rw [idx_zero]
        simp only [line_char_to_index, skipLines]
        simp only [if_neg (by omega : ¬(0 : Nat) < 0)]
        simp [colScan, hcr]
      | succ i2 =>
        have hlen : i2 < (stripCR s').length := by
          simp at h
          omega
        have hih := ih i2 hlen
        by_cases hnl : c = '\n'
        · subst hnl
          rw [idx_newline,
            show (((index_to_line_char s' i2).1 + 1, (index_to_line_char s' i2).2)).1 =
              (index_to_line_char s' i2).1 + 1 from rfl,
            show (((index_to_line_char s' i2).1 + 1, (index_to_line_char s' i2).2)).2 =
              (index_to_line_char s' i2).2 from rfl]
          rw [lcti_newline]
          omega
        · rw [idx_other c s' hcr hnl i2]
          by_cases hl2 : (index_to_line_char s' i2).1 = 0
          · rw [if_pos hl2]
            rw [show ((0 : Nat), (index_to_line_char s' i2).2 + 1).1 = 0 from rfl,
              show ((0 : Nat), (index_to_line_char s' i2).2 + 1).2 =
                (index_to_line_char s' i2).2 + 1 from rfl]
            rw [lcti_other_zero c s' hcr hnl ((index_to_line_char s' i2).2)]
            rw [hl2] at hih
            omega
          · rw [if_neg hl2]
            rcases hq : (index_to_line_char s' i2).1 with _ | m
            · exact absurd hq hl2
            · rw [lcti_other_pos c s' hcr hnl m ((index_to_line_char s' i2).2)]
              rw [hq] at hih
              omega

theorem stripCR_idem (s : List Char) : stripCR (stripCR s) = stripCR s := by
  induction s with
  | nil => rfl
  | cons c rest ih =>
    by_cases hcr : c = '\r'
    · subst hcr
      rw [stripCR_cons_cr]
      exact ih
    · rw [stripCR_cons c rest hcr, stripCR_cons c (stripCR rest) hcr, ih]

theorem idxAux_stripCR (s : List Char) :
    ∀ t line col k,
      indexToLineCharAux s t line col k =
        indexToLineCharAux (stripCR s) t line col k := by
  induction s with
  | nil => intro t line col k; rfl
  | cons c rest ih =>
    intro t line col k
    by_cases hcr : c = '\r'
    · subst hcr
      rw [stripCR_cons_cr]
      simp only [indexToLineCharAux, if_pos rfl]
      exact ih t line col k
    · rw [stripCR_cons c rest hcr]
      simp only [indexToLineCharAux, if_neg hcr]
      by_cases hkt : k = t
      · simp [hkt]
      · simp only [if_neg hkt]
        by_cases hnl : c = '\n'
        · simp only [if_pos hnl]
          exact ih t (line + 1) 0 (k + 1)
        · simp only [if_neg hnl]
          exact ih t line (col + 1) (k + 1)

theorem colScan_stripCR (s : List Char) :
    ∀ ch consumed colCount,
      colScan s ch consumed colCount = colScan (stripCR s) ch consumed colCount := by
  induction s with
  | nil => intro ch consumed cc; rfl
  | cons c rest ih =>
    intro ch consumed cc
    by_cases hcr : c = '\r'
    · subst hcr
      rw [stripCR_cons_cr]
      simp only [colScan, if_pos rfl]
      exact ih ch consumed cc
    · rw [stripCR_cons c rest hcr]
      simp only [colScan, if_neg hcr]
      by_cases hcc : cc = ch
      · simp [hcc]
      · simp only [if_neg hcc]
        by_cases hnl : c = '\n'
        · simp [hnl]
        · simp only [if_neg hnl]
          exact ih ch (consumed + 1) (cc + 1)

theorem skipLines_stripCR (s : List Char) :
    ∀ line consumed,
      skipLines (stripCR s) line consumed =
        (stripCR (skipLines s line consumed).1, (skipLines s line consumed).2.1,
          (skipLines s line consumed).2.2) := by
  induction s with
  | nil =>
    intro line consumed
    cases line with
    | zero => rfl
    | succ m => rfl
  | cons c rest ih =>
    intro line consumed
    cases line with
    | zero => simp [skipLines]
    | succ m =>
      by_cases hcr : c = '\r'
      · subst hcr
        rw [stripCR_cons_cr]
        simp only [skipLines, if_pos rfl]
        exact ih (m + 1) consumed
      · rw [stripCR_cons c rest hcr]
        simp only [skipLines, if_neg hcr]
        by_cases hnl : c = '\n'
        · simp only [if_pos hnl]
          exact ih m (consumed + 1)
        · simp only [if_neg hnl]
          exact ih (m + 1) (consumed + 1)

theorem idx_stripCR (s : List Char) (i : Nat) :
    index_to_line_char s i = index_to_line_char (stripCR s) i :=
  idxAux_stripCR s i 0 0 0

theorem lcti_stripCR (s : List Char) (L C : Nat) :
    line_char_to_index s L C = line_char_to_index (stripCR s) L C := by
  simp only [line_char_to_index]
  rw [skipLines_stripCR s L 0]
  rcases hq : skipLines s L 0 with ⟨rem, c0, left⟩
  dsimp only
  by_cases hl : 0 < left
  · simp only [if_pos hl]
    rw [stripCR_idem]
  · simp only [if_neg hl]
    exact colScan_stripCR rem C c0 0

theorem stripCR_toCRLF (t : List Char) : stripCR (toCRLF t) = stripCR t := by
  induction t with
  | nil => rfl
  | cons c rest ih =>
    by_cases hnl : c = '\n'
    · subst hnl
      have ht : toCRLF ('\n' :: rest) = '\r' :: '\n' :: toCRLF rest := by
        simp [toCRLF]
      rw [ht, stripCR_cons_cr, stripCR_cons '\n' (toCRLF rest) (by decide),
        stripCR_cons '\n' rest (by decide), ih]
    · simp only [toCRLF, if_neg hnl]
      by_cases hcr : c = '\r'
      · subst hcr
        rw [stripCR_cons_cr, stripCR_cons_cr]
        exact ih
      · rw [stripCR_cons c (toCRLF rest) hcr, stripCR_cons c rest hcr, ih]

/-- C3.  For every source text and every character offset inside it
(offsets count logical characters, carriage returns excluded), converting
the offset to `(line, column)` with `index_to_line_char` and back with
`line_char_to_index` returns the original offset, and both conversions
agree on the LF-normalized and the CRLF-normalized variants of the same
text. -/
theorem index_line_char_roundtrip_full (s : List Char) (i : Nat)
    (h : i < (stripCR s).length) :
    line_char_to_index s (index_to_line_char s i).1 (index_to_line_char s i).2 = i ∧
      index_to_line_char (stripCR s) i = index_to_line_char s i ∧
      index_to_line_char (toCRLF (stripCR s)) i = index_to_line_char s i ∧
      line_char_to_index (stripCR s)
        (index_to_line_char s i).1 (index_to_line_char s i).2 = i ∧
      line_char_to_index (toCRLF (stripCR s))
        (index_to_line_char s i).1 (index_to_line_char s i).2 = i := by
  have h1 := lcti_idx_roundtrip s i h
  have hidx : index_to_line_char (stripCR s) i = index_to_line_char s i :=
    (idx_stripCR s i).symm
  have hidx2 : index_to_line_char (toCRLF (stripCR s)) i = index_to_line_char s i := by
    rw [idx_stripCR (toCRLF (stripCR s)) i, stripCR_toCRLF, stripCR_idem]
    exact (idx_stripCR s i).symm
  have hl1 : line_char_to_index (stripCR s)
      (index_to_line_char s i).1 (index_to_line_char s i).2 = i := by
    rw [← lcti_stripCR]
    exact h1
  have hl2 : line_char_to_index (toCRLF (stripCR s))
      (index_to_line_char s i).1 (index_to_line_char s i).2 = i := by
    rw [lcti_stripCR (toCRLF (stripCR s)), stripCR_toCRLF, stripCR_idem, ← lcti_stripCR]
    exact h1
  exact ⟨h1, hidx, hidx2, hl1, hl2⟩

theorem index_line_char_roundtrip_full_witness :
    line_char_to_index ['a', 'b', '\n', 'c', 'd']
      (index_to_line_char ['a', 'b', '\n', 'c', 'd'] 3).1
      (index_to_line_char ['a', 'b', '\n', 'c', 'd'] 3).2 = 3 :=
  (index_line_char_roundtrip_full ['a', 'b', '\n', 'c', 'd'] 3 (by decide)).1
